import Mathlib

/-!
Shallow embedding of `order_sql_commands` from `src/database_tools.py`
(the DDL Dependency Resolver), together with proofs checking the
specification's claims about it.

Modelling conventions:
* Python strings are Lean `String`s; fragment scanning works on `List Char`.
* Python's regex character class `\w` is modelled as ASCII word characters
  (`isAlphanum` or underscore) and `\s` as `Char.isWhitespace`; the two
  regexes in the source are simple enough that their backtracking behaviour
  is deterministic maximal-munch, which is implemented directly below.
* Python dicts are insertion-ordered association lists (`updAssoc` replaces
  the value of an existing key in place, preserving its position).
* CPython iterates `set(...)` values in a hash-dependent order.  The model
  threads an explicit enumeration function `enum` through every place the
  source iterates a set (`all_tables`, `all_tables - set(ordered_tables)`),
  and the main entry point instantiates it with `id`, i.e. first-insertion
  order.  Claims whose truth depends on the enumeration are analysed
  against the parametric version.
* The two `while`/scan loops are written with explicit fuel together with a
  measure that provably strictly decreases at every iteration, so the fuel
  supplied by the wrappers is never exhausted (`kahnLoop_drains` below
  proves the queue is always fully drained, i.e. the embedding computes the
  same result as the unbounded Python `while` loop).
-/

namespace DbTools

/-- ASCII model of Python regex `\w`: letters, digits, underscore. -/
def isWordChar (c : Char) : Bool := c.isAlphanum || c = '_'

/-- The backtick character, one of the two identifier quotes accepted by the
source regexes. -/
def btick : Char := Char.ofNat 96

/-- `matchesAt pat s` holds when `pat` occurs literally at the head of `s`
(case-sensitive); used to model Python's substring test `pat in s`. -/
def matchesAt : List Char → List Char → Bool
  | [], _ => true
  | _ :: _, [] => false
  | p :: ps, c :: cs => p == c && matchesAt ps cs

/-- Python's `pat in s` substring test over character lists. -/
def containsSub (pat : List Char) : List Char → Bool
  | [] => pat.isEmpty
  | c :: rest => matchesAt pat (c :: rest) || containsSub pat rest

/-- Python `str.upper()` (ASCII fragment, matching the identifiers and
keywords the regexes care about). -/
def pyUpper (s : String) : String := String.mk (s.data.map Char.toUpper)

/-- Line 129: `"CREATE TABLE" in sql_ddl_code.upper()`. -/
def hasCreateTable (sql : String) : Bool :=
  containsSub "CREATE TABLE".toList (pyUpper sql).toList

/-- Case-insensitive literal match: on success returns the input with the
literal consumed (models the leading literal of each regex under
`re.IGNORECASE`). -/
def dropLitCI : List Char → List Char → Option (List Char)
  | [], s => some s
  | _ :: _, [] => none
  | p :: ps, c :: cs => if p.toUpper == c.toUpper then dropLitCI ps cs else none

/-- The optional identifier quote `["`]?` of both regexes: consume one
double quote or backtick if present. -/
def dropQuote (l : List Char) : List Char :=
  match l with
  | c :: r => if c = '\"' || c = btick then r else l
  | [] => l

/-- Tail of the header regex of line 139 after the literal `CREATE TABLE`:
`\s+["`]?(\w+)["`]?\s*\(`, returning the captured identifier.  All
quantifiers here are forced (the relevant character classes are disjoint),
so deterministic maximal munch is exact. -/
def headerTailName (s : List Char) : Option (List Char) :=
  if (s.takeWhile Char.isWhitespace).isEmpty then none else
  let s1 := s.dropWhile Char.isWhitespace
  let s2 := dropQuote s1
  let name := s2.takeWhile isWordChar
  if name.isEmpty then none else
  let s3 := dropQuote (s2.dropWhile isWordChar)
  match s3.dropWhile Char.isWhitespace with
  | '(' :: _ => some name
  | _ => none

/-- Line 139: `re.search(r'CREATE TABLE\s+["`]?(\w+)["`]?\s*\(', statement,
re.IGNORECASE)`: try every start position left to right, return the first
capture. -/
def findHeaderName : List Char → Option (List Char)
  | [] => none
  | c :: rest =>
    match dropLitCI "CREATE TABLE".toList (c :: rest) with
    | some tail =>
      match headerTailName tail with
      | some name => some name
      | none => findHeaderName rest
    | none => findHeaderName rest

/-- Tail of the foreign-key regex of line 147 after the literal
`REFERENCES`: `\s+["`]?(\w+)["`]?\s*(?:\(|\s)`.  Returns the capture and
the rest of the input after the full match (where `re.findall` resumes).
When the trailing whitespace run is nonempty and not followed by `(`, the
regex backtracks so that the final `\s` consumes the last whitespace
character: the match then ends exactly at the end of the whitespace run. -/
def refTailName (s : List Char) : Option (List Char × List Char) :=
  if (s.takeWhile Char.isWhitespace).isEmpty then none else
  let s1 := s.dropWhile Char.isWhitespace
  let s2 := dropQuote s1
  let name := s2.takeWhile isWordChar
  if name.isEmpty then none else
  let s3 := dropQuote (s2.dropWhile isWordChar)
  let ws := s3.takeWhile Char.isWhitespace
  match s3.dropWhile Char.isWhitespace with
  | '(' :: r => some (name, r)
  | r => if ws.isEmpty then none else some (name, r)

/-- Scanning loop of `re.findall` for the foreign-key regex: at each
position try a match; on success record the capture and resume after the
match, otherwise advance one character.  The position advances by at least
one character per step, so fuel `length + 1` is never exhausted. -/
def findRefsAux : Nat → List Char → List String
  | 0, _ => []
  | _ + 1, [] => []
  | fuel + 1, c :: rest =>
    match dropLitCI "REFERENCES".toList (c :: rest) with
    | some tail =>
      match refTailName tail with
      | some (name, after) => String.mk name :: findRefsAux fuel after
      | none => findRefsAux fuel rest
    | none => findRefsAux fuel rest

/-- Line 147: `re.findall(r'REFERENCES\s+["`]?(\w+)["`]?\s*(?:\(|\s)',
statement, re.IGNORECASE)`. -/
def findRefs (s : List Char) : List String := findRefsAux (s.length + 1) s

/-- First-match association lookup, modelling Python dict subscripting. -/
def getD : List (String × α) → String → α → α
  | [], _, d => d
  | (k', v) :: rest, k, d => if k' = k then v else getD rest k d

/-- Python dict assignment `m[k] = v`: overwrite in place if the key
exists (keeping its position), otherwise append. -/
def updAssoc (k : String) (v : α) : List (String × α) → List (String × α)
  | [] => [(k, v)]
  | (k', v') :: rest => if k' = k then (k, v) :: rest else (k', v') :: updAssoc k v rest

/-- The two dicts built by the extraction loop of lines 135-150. -/
structure ExtractSt where
  tableMap : List (String × String)
  deps : List (String × List String)

/-- Lines 138-150, one iteration: if the header regex matches, store
`statement + ";"` under the captured name and (re)set that name's
dependency list to the captured `REFERENCES` names. -/
def extractStep (st : ExtractSt) (statement : String) : ExtractSt :=
  match findHeaderName statement.toList with
  | none => st
  | some nameChars =>
    let tableName := String.mk nameChars
    { tableMap := updAssoc tableName (statement ++ ";") st.tableMap
      deps := updAssoc tableName (findRefs statement.toList) st.deps }

/-- Python `str.split(';')` over characters: every separator occurrence
starts a new group, so adjacent separators yield empty groups. -/
def splitSemis : List Char → List (List Char)
  | [] => [[]]
  | c :: rest =>
    if c = ';' then [] :: splitSemis rest
    else
      match splitSemis rest with
      | [] => [[c]]
      | g :: gs => (c :: g) :: gs

/-- Python `str.strip()`: drop leading and trailing whitespace. -/
def stripChars (l : List Char) : List Char :=
  ((l.dropWhile Char.isWhitespace).reverse.dropWhile Char.isWhitespace).reverse

/-- Python `str.strip()` on strings. -/
def pyStrip (s : String) : String := String.mk (stripChars s.toList)

/-- Line 133: split on `;`, strip each fragment, drop empties. -/
def splitStatements (sql : String) : List String :=
  ((splitSemis sql.toList).map (fun l => pyStrip (String.mk l))).filter
    (fun s => decide (s ≠ ""))

/-- Lines 135-150: the extraction loop over all fragments. -/
def extractAll (sql : String) : ExtractSt :=
  (splitStatements sql).foldl extractStep ⟨[], []⟩

/-- State of the topological-sort loop of lines 152-173. -/
structure SortSt where
  deps : List (String × List String)
  queue : List String
  ordered : List String

/-- Line 158: `not dependencies[t] or all(dep not in all_tables for dep in
dependencies[t])`. -/
def ready0 (allTables : List String) (deps : List (String × List String)) (t : String) : Bool :=
  (getD deps t []).isEmpty || (getD deps t []).all (fun d => decide (d ∉ allTables))

/-- Lines 156-159: the initial ready queue, a filtered iteration over the
set `all_tables` (enumeration order abstracted as `enum`). -/
def seedQueue (enum : List String → List String) (allTables : List String)
    (deps : List (String × List String)) : List String :=
  (enum allTables).filter (ready0 allTables deps)

/-- Lines 168-173, one dependent table: if `current` is in its dependency
list, remove one occurrence; if the list became empty and the table is not
already queued, enqueue it.  The state is `(dependencies, ready_to_process)`. -/
def innerStep (current : String) (st : List (String × List String) × List String)
    (t : String) : List (String × List String) × List String :=
  if t ∈ st.1.map Prod.fst ∧ current ∈ getD st.1 t [] then
    if (getD st.1 t []).erase current = [] ∧ t ∉ st.2 then
      (updAssoc t ((getD st.1 t []).erase current) st.1, st.2 ++ [t])
    else (updAssoc t ((getD st.1 t []).erase current) st.1, st.2)
  else st

/-- Line 167: the elements of `all_tables - set(ordered_tables)` (in
first-insertion order; the enumeration the source actually sees is a
hash-dependent reordering of this list). -/
def remainingOf (allTables ordered2 : List String) : List String :=
  allTables.filter (fun t => decide (t ∉ ordered2))

/-- Lines 167-173: the `for dependent_table in ...` scan, a fold of
`innerStep` over the remaining tables. -/
def scanDependents (current : String) (dq : List (String × List String) × List String)
    (rem : List String) : List (String × List String) × List String :=
  rem.foldl (innerStep current) dq

/-- Lines 162-173, one iteration of the `while` loop: pop the queue head,
append it to `ordered` if new, then scan `all_tables - set(ordered_tables)`
(enumeration order abstracted as `enum`). -/
def kahnStep (enum : List String → List String) (allTables : List String) (st : SortSt) :
    SortSt :=
  match st.queue with
  | [] => st
  | current :: qrest =>
    let ordered2 := if current ∈ st.ordered then st.ordered else st.ordered ++ [current]
    let p := scanDependents current (st.deps, qrest) (enum (remainingOf allTables ordered2))
    ⟨p.1, p.2, ordered2⟩

/-- Total length of all dependency lists. -/
def depsSize (deps : List (String × List String)) : Nat :=
  (deps.map (fun p => p.2.length)).sum

/-- Termination measure for the `while` loop: every iteration strictly
decreases it (proved in `sortMeasure_kahnStep_lt`). -/
def sortMeasure (st : SortSt) : Nat := st.queue.length + 2 * depsSize st.deps

/-- Lines 161-173: the `while ready_to_process:` loop, with fuel. -/
def kahnLoop (enum : List String → List String) (allTables : List String) :
    Nat → SortSt → SortSt
  | 0, st => st
  | fuel + 1, st =>
    match st.queue with
    | [] => st
    | _ :: _ => kahnLoop enum allTables fuel (kahnStep enum allTables st)

/-- The `while` loop run with provably sufficient fuel. -/
def runKahn (enum : List String → List String) (allTables : List String) (st : SortSt) :
    SortSt :=
  kahnLoop enum allTables (sortMeasure st + 1) st

/-- `table_map` computed for an input. -/
def tableMapOf (sql : String) : List (String × String) := (extractAll sql).tableMap

/-- `dependencies` computed for an input. -/
def depsOf (sql : String) : List (String × List String) := (extractAll sql).deps

/-- Line 154: `all_tables = set(table_map.keys())`, enumerated in
first-insertion order. -/
def allTablesOf (sql : String) : List String := (tableMapOf sql).map Prod.fst

/-- The sort state entering the `while` loop. -/
def initSort (enum : List String → List String) (sql : String) : SortSt :=
  ⟨depsOf sql, seedQueue enum (allTablesOf sql) (depsOf sql), []⟩

/-- The sort state after the `while` loop finishes. -/
def finalSort (enum : List String → List String) (sql : String) : SortSt :=
  runKahn enum (allTablesOf sql) (initSort enum sql)

/-- `ordered_tables` after the loop. -/
def orderedTablesW (enum : List String → List String) (sql : String) : List String :=
  (finalSort enum sql).ordered

/-- Line 178: `missing_tables = all_tables - set(ordered_tables)`. -/
def missingTablesW (enum : List String → List String) (sql : String) : List String :=
  enum ((allTablesOf sql).filter (fun t => decide (t ∉ orderedTablesW enum sql)))

/-- Line 180's f-string up to the joined names (the source file literally
contains the mojibake characters reproduced here). -/
def warnHeader : String :=
  "# ðŸš¨ WARNING: Not all tables could be topologically sorted (possible circular dependencies: "

/-- Python `sep.join(parts)`. -/
def joinWith (sep : String) : List String → String
  | [] => ""
  | [x] => x
  | x :: y :: rest => x ++ sep ++ joinWith sep (y :: rest)

/-- Line 180: the warning return value, original input appended verbatim. -/
def warnText (missing : List String) (sql : String) : String :=
  warnHeader ++ joinWith ", " missing ++ "). Using original order.\n" ++ sql

/-- Line 183's success announcement literal (mojibake reproduced). -/
def successHeader : String := "# âœ… DDL Commands sorted by FOREIGN KEY dependency:\n"

/-- Line 190: `final_output.replace(';', ';\n\n')`. -/
def replaceSemis : List Char → List Char
  | [] => []
  | c :: r => if c = ';' then ';' :: '\n' :: '\n' :: replaceSemis r else c :: replaceSemis r

/-- Lines 183-192: assemble the success output: header, each ordered
table's stored statement, newline-joined, semicolons expanded, stripped. -/
def renderSuccess (tableMap : List (String × String)) (ordered : List String) : String :=
  pyStrip (String.mk (replaceSemis
    (joinWith "\n" (successHeader :: ordered.map (fun t => getD tableMap t ""))).toList))

/-- Lines 122-192 with the set-enumeration order abstracted. -/
def order_sql_commands_with (enum : List String → List String) (sql : String) : String :=
  if hasCreateTable sql then
    if (orderedTablesW enum sql).length ≠ (tableMapOf sql).length then
      if missingTablesW enum sql ≠ [] then warnText (missingTablesW enum sql) sql
      else renderSuccess (tableMapOf sql) (orderedTablesW enum sql)
    else renderSuccess (tableMapOf sql) (orderedTablesW enum sql)
  else sql

/-- `order_sql_commands` from `src/database_tools.py`, with sets enumerated
in first-insertion order. -/
def order_sql_commands (sql : String) : String := order_sql_commands_with id sql

/-- The statements the success path emits, in emission order. -/
def emittedStatements (sql : String) : List String :=
  (orderedTablesW id sql).map (fun t => getD (tableMapOf sql) t "")

/-- The condition under which the source reaches the success output of
lines 183-192 (line 177's test fails, or line 179's test fails). -/
def successPath (sql : String) : Prop :=
  hasCreateTable sql = true ∧
    ((orderedTablesW id sql).length = (tableMapOf sql).length ∨ missingTablesW id sql = [])

/-! ## Association-list lemmas -/

theorem getD_updAssoc_self (k : String) (v : α) (m : List (String × α)) (d : α) :
    getD (updAssoc k v m) k d = v := by
  induction m with
  | nil => simp [updAssoc, getD]
  | cons p rest ih =>
    obtain ⟨k', v'⟩ := p
    by_cases h : k' = k
    · simp [updAssoc, h, getD]
    · simp [updAssoc, h, getD, ih]

theorem getD_updAssoc_ne (h : x ≠ k) (v : α) (m : List (String × α)) (d : α) :
    getD (updAssoc k v m) x d = getD m x d := by
  have hkx : ¬ k = x := fun hk => h hk.symm
  induction m with
  | nil => simp [updAssoc, getD, hkx]
  | cons p rest ih =>
    obtain ⟨k', v'⟩ := p
    by_cases hk : k' = k
    · subst hk
      simp [updAssoc, getD, hkx]
    · simp [updAssoc, hk, getD, ih]

theorem mapFst_updAssoc_of_mem (h : k ∈ m.map Prod.fst) (v : α) :
    (updAssoc k v m).map Prod.fst = m.map Prod.fst := by
  induction m with
  | nil => simp at h
  | cons p rest ih =>
    obtain ⟨k', v'⟩ := p
    by_cases hk : k' = k
    · simp [updAssoc, hk]
    · simp only [List.map_cons, List.mem_cons] at h
      rcases h with h | h
      · exact absurd h.symm hk
      · simp [updAssoc, hk, ih h]

theorem mapFst_updAssoc_of_not_mem (h : k ∉ m.map Prod.fst) (v : α) :
    (updAssoc k v m).map Prod.fst = m.map Prod.fst ++ [k] := by
  induction m with
  | nil => simp [updAssoc]
  | cons p rest ih =>
    obtain ⟨k', v'⟩ := p
    simp only [List.map_cons, List.mem_cons] at h
    push_neg at h
    have h1 : ¬ k' = k := fun he => h.1 he.symm
    simp [updAssoc, h1, ih h.2]

theorem getD_mem_of_mem_keys (h : k ∈ m.map Prod.fst) (d : α) :
    (k, getD m k d) ∈ m := by
  induction m with
  | nil => simp at h
  | cons p rest ih =>
    obtain ⟨k', v'⟩ := p
    by_cases hk : k' = k
    · subst hk
      simp [getD]
    · simp only [List.map_cons, List.mem_cons] at h
      rcases h with h | h
      · exact absurd h.symm hk
      · simp [getD, hk, ih h]

theorem mem_updAssoc (h : p ∈ updAssoc k v m) : p = (k, v) ∨ p ∈ m := by
  induction m with
  | nil => simpa [updAssoc] using h
  | cons q rest ih =>
    obtain ⟨k', v'⟩ := q
    by_cases hk : k' = k
    · simp only [updAssoc, if_pos hk, List.mem_cons] at h
      rcases h with h | h
      · exact Or.inl h
      · exact Or.inr (List.mem_cons_of_mem _ h)
    · simp only [updAssoc, if_neg hk, List.mem_cons] at h
      rcases h with h | h
      · exact Or.inr (by simp [h])
      · rcases ih h with h' | h'
        · exact Or.inl h'
        · exact Or.inr (List.mem_cons_of_mem _ h')

theorem depsSize_updAssoc (h : k ∈ m.map Prod.fst) (v : List String) :
    depsSize (updAssoc k v m) + (getD m k []).length = depsSize m + v.length := by
  induction m with
  | nil => simp at h
  | cons p rest ih =>
    obtain ⟨k', v'⟩ := p
    by_cases hk : k' = k
    · simp only [updAssoc, if_pos hk, depsSize, List.map_cons, List.sum_cons, getD, hk]
      simp
      omega
    · simp only [List.map_cons, List.mem_cons] at h
      rcases h with h | h
      · exact absurd h.symm hk
      · simp only [updAssoc, if_neg hk, depsSize, List.map_cons, List.sum_cons, getD, hk,
          if_false]
        have := ih h
        simp only [depsSize] at this
        omega

/-! ## One step of the dependent scan -/

theorem innerStep_keys (current : String) (dq : List (String × List String) × List String)
    (t : String) : (innerStep current dq t).1.map Prod.fst = dq.1.map Prod.fst := by
  unfold innerStep
  split_ifs with h1 h2
  · exact mapFst_updAssoc_of_mem h1.1 _
  · exact mapFst_updAssoc_of_mem h1.1 _
  · rfl

theorem innerStep_queue_ext (current : String) (dq : List (String × List String) × List String)
    (t : String) :
    (innerStep current dq t).2 = dq.2 ∨ (innerStep current dq t).2 = dq.2 ++ [t] := by
  unfold innerStep
  split_ifs with h1 h2
  · exact Or.inr rfl
  · exact Or.inl rfl
  · exact Or.inl rfl

theorem innerStep_queue_nodup (current : String)
    (dq : List (String × List String) × List String) (t : String) (h : dq.2.Nodup) :
    (innerStep current dq t).2.Nodup := by
  unfold innerStep
  split_ifs with h1 h2
  · simpa [List.nodup_append, h] using h2.2
  · exact h
  · exact h

theorem innerStep_measure (current : String) (dq : List (String × List String) × List String)
    (t : String) :
    (innerStep current dq t).2.length + 2 * depsSize (innerStep current dq t).1 ≤
      dq.2.length + 2 * depsSize dq.1 := by
  unfold innerStep
  split_ifs with h1 h2
  · have hsz := depsSize_updAssoc (m := dq.1) h1.1 ((getD dq.1 t []).erase current)
    have hlen : ((getD dq.1 t []).erase current).length = (getD dq.1 t []).length - 1 :=
      List.length_erase_of_mem h1.2
    have hpos : 0 < (getD dq.1 t []).length := List.length_pos.mpr (List.ne_nil_of_mem h1.2)
    simp only [List.length_append, List.length_cons, List.length_nil]
    omega
  · have hsz := depsSize_updAssoc (m := dq.1) h1.1 ((getD dq.1 t []).erase current)
    have hlen : ((getD dq.1 t []).erase current).length = (getD dq.1 t []).length - 1 :=
      List.length_erase_of_mem h1.2
    have hpos : 0 < (getD dq.1 t []).length := List.length_pos.mpr (List.ne_nil_of_mem h1.2)
    dsimp only
    omega
  · exact le_refl _

theorem innerStep_getD_ne (current : String) (dq : List (String × List String) × List String)
    (t x : String) (hx : x ≠ t) : getD (innerStep current dq t).1 x [] = getD dq.1 x [] := by
  unfold innerStep
  split_ifs with h1 h2
  · exact getD_updAssoc_ne hx _ _ _
  · exact getD_updAssoc_ne hx _ _ _
  · rfl

theorem innerStep_queue_mem_ne (current : String)
    (dq : List (String × List String) × List String) (t x : String) (hx : x ≠ t) :
    (x ∈ (innerStep current dq t).2 ↔ x ∈ dq.2) := by
  rcases innerStep_queue_ext current dq t with h | h
  · rw [h]
  · rw [h]
    simp [hx]

theorem innerStep_blocked (current : String)
    (dq : List (String × List String) × List String) (x : String)
    (hne : (getD dq.1 x []).erase current ≠ []) (hq : x ∉ dq.2) :
    (getD (innerStep current dq x).1 x [] = getD dq.1 x [] ∨
      getD (innerStep current dq x).1 x [] = (getD dq.1 x []).erase current) ∧
      x ∉ (innerStep current dq x).2 := by
  unfold innerStep
  split_ifs with h1 h2
  · exact absurd h2.1 hne
  · exact ⟨Or.inr (getD_updAssoc_self _ _ _ _), hq⟩
  · exact ⟨Or.inl rfl, hq⟩

/-! ## The dependent scan as a whole -/

theorem scanDependents_keys (current : String)
    (rem : List String) : ∀ dq : List (String × List String) × List String,
    (scanDependents current dq rem).1.map Prod.fst = dq.1.map Prod.fst := by
  induction rem with
  | nil => intro dq; rfl
  | cons t rest ih =>
    intro dq
    have h := ih (innerStep current dq t)
    simpa [scanDependents, List.foldl_cons, innerStep_keys] using h

theorem scanDependents_queue_ext (current : String) (rem : List String) :
    ∀ dq : List (String × List String) × List String,
    ∃ ext, (scanDependents current dq rem).2 = dq.2 ++ ext ∧ ∀ e ∈ ext, e ∈ rem := by
  induction rem with
  | nil => intro dq; exact ⟨[], by simp [scanDependents]⟩
  | cons t rest ih =>
    intro dq
    obtain ⟨ext, hext, hsub⟩ := ih (innerStep current dq t)
    rcases innerStep_queue_ext current dq t with h | h
    · refine ⟨ext, ?_, fun e he => List.mem_cons_of_mem _ (hsub e he)⟩
      simpa [scanDependents, List.foldl_cons, h] using hext
    · refine ⟨t :: ext, ?_, ?_⟩
      · have : (scanDependents current (innerStep current dq t) rest).2 =
          (dq.2 ++ [t]) ++ ext := by rw [← h]; exact hext
        simpa [scanDependents, List.foldl_cons] using this
      · intro e he
        rcases he with _ | he
        · exact List.mem_cons_self _ _
        · exact List.mem_cons_of_mem _ (hsub e (by assumption))

theorem scanDependents_queue_nodup (current : String) (rem : List String) :
    ∀ dq : List (String × List String) × List String, dq.2.Nodup →
    (scanDependents current dq rem).2.Nodup := by
  induction rem with
  | nil => intro dq h; exact h
  | cons t rest ih =>
    intro dq h
    exact ih (innerStep current dq t) (innerStep_queue_nodup current dq t h)

theorem scanDependents_measure (current : String) (rem : List String) :
    ∀ dq : List (String × List String) × List String,
    (scanDependents current dq rem).2.length + 2 * depsSize (scanDependents current dq rem).1 ≤
      dq.2.length + 2 * depsSize dq.1 := by
  induction rem with
  | nil => intro dq; exact le_refl _
  | cons t rest ih =>
    intro dq
    exact le_trans (ih (innerStep current dq t)) (innerStep_measure current dq t)

theorem scanDependents_untouched (current : String) (rem : List String) :
    ∀ dq : List (String × List String) × List String, ∀ x, x ∉ rem →
    getD (scanDependents current dq rem).1 x [] = getD dq.1 x [] ∧
      (x ∈ (scanDependents current dq rem).2 ↔ x ∈ dq.2) := by
  induction rem with
  | nil => intro dq x _; exact ⟨rfl, Iff.rfl⟩
  | cons t rest ih =>
    intro dq x hx
    have hxt : x ≠ t := fun h => hx (h ▸ List.mem_cons_self _ _)
    have hxrest : x ∉ rest := fun h => hx (List.mem_cons_of_mem _ h)
    obtain ⟨ih1, ih2⟩ := ih (innerStep current dq t) x hxrest
    constructor
    · rw [show scanDependents current dq (t :: rest) =
        scanDependents current (innerStep current dq t) rest from rfl, ih1]
      exact innerStep_getD_ne current dq t x hxt
    · rw [show scanDependents current dq (t :: rest) =
        scanDependents current (innerStep current dq t) rest from rfl, ih2]
      exact innerStep_queue_mem_ne current dq t x hxt

theorem scanDependents_blocked (current : String) (rem : List String) :
    ∀ dq : List (String × List String) × List String, ∀ x, rem.Nodup →
    (getD dq.1 x []).erase current ≠ [] → x ∉ dq.2 →
    (getD (scanDependents current dq rem).1 x [] = getD dq.1 x [] ∨
      getD (scanDependents current dq rem).1 x [] = (getD dq.1 x []).erase current) ∧
      x ∉ (scanDependents current dq rem).2 := by
  induction rem with
  | nil => intro dq x _ _ hq; exact ⟨Or.inl rfl, hq⟩
  | cons t rest ih =>
    intro dq x hnd hne hq
    have hrest : rest.Nodup := hnd.of_cons
    by_cases hxt : x = t
    · subst hxt
      have hx_rest : x ∉ rest := (List.nodup_cons.mp hnd).1
      obtain ⟨hdisj, hqmem⟩ := innerStep_blocked current dq x hne hq
      obtain ⟨hu1, hu2⟩ := scanDependents_untouched current rest (innerStep current dq x) x hx_rest
      refine ⟨?_, hu2.not.mpr hqmem⟩
      rw [show scanDependents current dq (x :: rest) =
        scanDependents current (innerStep current dq x) rest from rfl, hu1]
      exact hdisj
    · have h1 := innerStep_getD_ne current dq t x hxt
      have h2 := innerStep_queue_mem_ne current dq t x hxt
      have := ih (innerStep current dq t) x hrest (by rw [h1]; exact hne) (h2.not.mpr hq)
      rw [show scanDependents current dq (t :: rest) =
        scanDependents current (innerStep current dq t) rest from rfl]
      rw [h1] at this
      exact this

/-! ## The while loop -/

theorem kahnStep_cons (enum : List String → List String) (allT : List String)
    (deps : List (String × List String)) (c : String) (qrest ordered : List String) :
    kahnStep enum allT ⟨deps, c :: qrest, ordered⟩ =
      ⟨(scanDependents c (deps, qrest)
          (enum (remainingOf allT (if c ∈ ordered then ordered else ordered ++ [c])))).1,
        (scanDependents c (deps, qrest)
          (enum (remainingOf allT (if c ∈ ordered then ordered else ordered ++ [c])))).2,
        if c ∈ ordered then ordered else ordered ++ [c]⟩ := rfl

theorem sortMeasure_kahnStep_lt (enum : List String → List String) (allT : List String)
    (st : SortSt) (h : st.queue ≠ []) :
    sortMeasure (kahnStep enum allT st) < sortMeasure st := by
  obtain ⟨deps, queue, ordered⟩ := st
  cases queue with
  | nil => exact absurd rfl h
  | cons c qrest =>
    rw [kahnStep_cons]
    have := scanDependents_measure c
      (enum (remainingOf allT (if c ∈ ordered then ordered else ordered ++ [c])))
      (deps, qrest)
    simp only [sortMeasure, List.length_cons]
    dsimp only at this ⊢
    omega

theorem kahnLoop_queue_nil (enum : List String → List String) (allT : List String)
    (fuel : Nat) (st : SortSt) (h : st.queue = []) : kahnLoop enum allT fuel st = st := by
  cases fuel with
  | zero => rfl
  | succ f =>
    unfold kahnLoop
    rw [h]

theorem kahnLoop_succ_of_cons (enum : List String → List String) (allT : List String)
    (f : Nat) (st : SortSt) (c : String) (qrest : List String) (h : st.queue = c :: qrest) :
    kahnLoop enum allT (f + 1) st = kahnLoop enum allT f (kahnStep enum allT st) := by
  conv_lhs => unfold kahnLoop
  rw [h]

theorem kahnLoop_drains (enum : List String → List String) (allT : List String) :
    ∀ fuel (st : SortSt), sortMeasure st < fuel → (kahnLoop enum allT fuel st).queue = [] := by
  intro fuel
  induction fuel with
  | zero => intro st h; exact absurd h (Nat.not_lt_zero _)
  | succ f ih =>
    intro st h
    cases hq : st.queue with
    | nil => rw [kahnLoop_queue_nil enum allT _ st hq]; exact hq
    | cons c qrest =>
      have hne : st.queue ≠ [] := by rw [hq]; exact List.cons_ne_nil _ _
      have hlt := sortMeasure_kahnStep_lt enum allT st hne
      rw [kahnLoop_succ_of_cons enum allT f st c qrest hq]
      exact ih _ (by omega)

theorem kahnLoop_inv (enum : List String → List String) (allT : List String)
    (P : SortSt → Prop)
    (hP : ∀ st, st.queue ≠ [] → P st → P (kahnStep enum allT st)) :
    ∀ fuel (st : SortSt), P st → P (kahnLoop enum allT fuel st) := by
  intro fuel
  induction fuel with
  | zero => intro st h; exact h
  | succ f ih =>
    intro st h
    cases hq : st.queue with
    | nil => rw [kahnLoop_queue_nil enum allT _ st hq]; exact h
    | cons c qrest =>
      have hne : st.queue ≠ [] := by rw [hq]; exact List.cons_ne_nil _ _
      rw [kahnLoop_succ_of_cons enum allT f st c qrest hq]
      exact ih _ (hP st hne h)

theorem kahnStep_ordered_ext (enum : List String → List String) (allT : List String)
    (st : SortSt) :
    ∃ ext, (kahnStep enum allT st).ordered = st.ordered ++ ext := by
  obtain ⟨deps, queue, ordered⟩ := st
  cases queue with
  | nil => exact ⟨[], by simp [kahnStep]⟩
  | cons c qrest =>
    rw [kahnStep_cons]
    by_cases hc : c ∈ ordered
    · exact ⟨[], by simp [hc]⟩
    · exact ⟨[c], by simp [hc]⟩

theorem kahnLoop_ordered_ext (enum : List String → List String) (allT : List String) :
    ∀ fuel (st : SortSt), ∃ ext, (kahnLoop enum allT fuel st).ordered = st.ordered ++ ext := by
  intro fuel
  induction fuel with
  | zero => intro st; exact ⟨[], by simp [kahnLoop]⟩
  | succ f ih =>
    intro st
    cases hq : st.queue with
    | nil => exact ⟨[], by rw [kahnLoop_queue_nil enum allT _ st hq]; simp⟩
    | cons c qrest =>
      have hstep := kahnLoop_succ_of_cons enum allT f st c qrest hq
      obtain ⟨e1, he1⟩ := kahnStep_ordered_ext enum allT st
      obtain ⟨e2, he2⟩ := ih (kahnStep enum allT st)
      exact ⟨e1 ++ e2, by rw [hstep, he2, he1, List.append_assoc]⟩

theorem kahnLoop_mem_ordered (enum : List String → List String) (allT : List String) :
    ∀ fuel (st : SortSt), (kahnLoop enum allT fuel st).queue = [] →
    ∀ t, (t ∈ st.queue ∨ t ∈ st.ordered) → t ∈ (kahnLoop enum allT fuel st).ordered := by
  intro fuel
  induction fuel with
  | zero =>
    intro st hdone t ht
    rcases ht with ht | ht
    · rw [show kahnLoop enum allT 0 st = st from rfl] at hdone
      rw [hdone] at ht
      exact absurd ht (List.not_mem_nil t)
    · exact ht
  | succ f ih =>
    intro st hdone t ht
    cases hq : st.queue with
    | nil =>
      rw [kahnLoop_queue_nil enum allT _ st hq] at hdone ⊢
      rcases ht with ht | ht
      · rw [hq] at ht
        exact absurd ht (List.not_mem_nil t)
      · exact ht
    | cons c qrest =>
      have hstep := kahnLoop_succ_of_cons enum allT f st c qrest hq
      rw [hstep] at hdone ⊢
      apply ih _ hdone
      obtain ⟨deps, queue, ordered⟩ := st
      simp only at hq
      subst hq
      rw [kahnStep_cons]
      obtain ⟨ext, hext, _⟩ := scanDependents_queue_ext c
        (enum (remainingOf allT (if c ∈ ordered then ordered else ordered ++ [c]))) (deps, qrest)
      simp only at ht ⊢
      rcases ht with ht | ht
      · rcases List.mem_cons.mp ht with ht | ht
        · subst ht
          right
          by_cases hc : t ∈ ordered
          · simp [hc]
          · simp [hc]
        · left
          rw [hext]
          exact List.mem_append_left _ ht
      · right
        by_cases hc : c ∈ ordered
        · simpa [hc] using ht
        · simp [hc, List.mem_append_left _ ht]

/-! ## The structural invariant of the sort loop -/

/-- Invariant maintained by every iteration of the `while` loop: the queue
and the ordered list are duplicate-free and disjoint, both draw from
`all_tables`, and the dependency dict keeps exactly the keys of
`table_map`. -/
structure SortInv (allT : List String) (st : SortSt) : Prop where
  qNodup : st.queue.Nodup
  oNodup : st.ordered.Nodup
  disj : ∀ t ∈ st.queue, t ∉ st.ordered
  qSub : ∀ t ∈ st.queue, t ∈ allT
  oSub : ∀ t ∈ st.ordered, t ∈ allT
  keys : st.deps.map Prod.fst = allT

theorem mem_remainingOf {allT ordered2 : List String} {t : String} :
    t ∈ remainingOf allT ordered2 ↔ t ∈ allT ∧ t ∉ ordered2 := by
  simp [remainingOf]

theorem sortInv_step (allT : List String) (st : SortSt)
    (hne : st.queue ≠ []) (h : SortInv allT st) : SortInv allT (kahnStep id allT st) := by
  obtain ⟨deps, queue, ordered⟩ := st
  cases queue with
  | nil => exact absurd rfl hne
  | cons c qrest =>
    have hc_not_ord : c ∉ ordered := h.disj c (List.mem_cons_self _ _)
    have hc_all : c ∈ allT := h.qSub c (List.mem_cons_self _ _)
    have hc_not_qrest : c ∉ qrest := (List.nodup_cons.mp h.qNodup).1
    have hqrest_nodup : qrest.Nodup := (List.nodup_cons.mp h.qNodup).2
    rw [kahnStep_cons, if_neg hc_not_ord]
    set o2 := ordered ++ [c] with ho2
    set rem := id (remainingOf allT o2) with hrem
    obtain ⟨ext, hext, hextsub⟩ := scanDependents_queue_ext c rem (deps, qrest)
    have hqueue : (scanDependents c (deps, qrest) rem).2 = qrest ++ ext := hext
    constructor
    · exact scanDependents_queue_nodup c rem (deps, qrest) hqrest_nodup
    · exact List.Nodup.append h.oNodup (List.nodup_singleton c)
        (fun x hx hxc => hc_not_ord ((List.mem_singleton.mp hxc) ▸ hx))
    · intro t ht
      rw [hqueue] at ht
      rcases List.mem_append.mp ht with ht | ht
      · have ht_ord : t ∉ ordered := h.disj t (List.mem_cons_of_mem _ ht)
        have ht_c : t ≠ c := fun he => hc_not_qrest (he ▸ ht)
        simp [ho2, ht_ord, ht_c]
      · have := hextsub t ht
        rw [hrem] at this
        exact (mem_remainingOf.mp this).2
    · intro t ht
      rw [hqueue] at ht
      rcases List.mem_append.mp ht with ht | ht
      · exact h.qSub t (List.mem_cons_of_mem _ ht)
      · have := hextsub t ht
        rw [hrem] at this
        exact (mem_remainingOf.mp this).1
    · intro t ht
      rcases List.mem_append.mp ht with ht | ht
      · exact h.oSub t ht
      · rcases List.mem_singleton.mp ht with rfl
        exact hc_all
    · show (scanDependents c (deps, qrest) rem).1.map Prod.fst = allT
      rw [scanDependents_keys]
      exact h.keys

/-! ## Extraction invariants -/

theorem extract_keys_aux (frags : List String) :
    ∀ st : ExtractSt, st.tableMap.map Prod.fst = st.deps.map Prod.fst →
      (st.tableMap.map Prod.fst).Nodup →
    (frags.foldl extractStep st).tableMap.map Prod.fst =
        (frags.foldl extractStep st).deps.map Prod.fst ∧
      ((frags.foldl extractStep st).tableMap.map Prod.fst).Nodup := by
  induction frags with
  | nil => intro st h1 h2; exact ⟨h1, h2⟩
  | cons f rest ih =>
    intro st h1 h2
    rw [List.foldl_cons]
    apply ih
    · unfold extractStep
      cases findHeaderName f.toList with
      | none => exact h1
      | some nameChars =>
        by_cases hk : String.mk nameChars ∈ st.tableMap.map Prod.fst
        · simp only
          rw [mapFst_updAssoc_of_mem hk, mapFst_updAssoc_of_mem (h1 ▸ hk), h1]
        · simp only
          rw [mapFst_updAssoc_of_not_mem hk, mapFst_updAssoc_of_not_mem (fun hc => hk (h1 ▸ hc)),
            h1]
    · unfold extractStep
      cases findHeaderName f.toList with
      | none => exact h2
      | some nameChars =>
        by_cases hk : String.mk nameChars ∈ st.tableMap.map Prod.fst
        · simp only
          rw [mapFst_updAssoc_of_mem hk]
          exact h2
        · simp only
          rw [mapFst_updAssoc_of_not_mem hk]
          simp [List.nodup_append, h2, hk]

theorem tableMap_keys_eq_deps_keys (sql : String) :
    (tableMapOf sql).map Prod.fst = (depsOf sql).map Prod.fst :=
  (extract_keys_aux (splitStatements sql) ⟨[], []⟩ rfl List.nodup_nil).1

theorem allTablesOf_nodup (sql : String) : (allTablesOf sql).Nodup :=
  (extract_keys_aux (splitStatements sql) ⟨[], []⟩ rfl List.nodup_nil).2

theorem depsOf_keys (sql : String) : (depsOf sql).map Prod.fst = allTablesOf sql :=
  (tableMap_keys_eq_deps_keys sql).symm

/-- Every stored `table_map` value is a recognized fragment with `";"`
re-appended. -/
theorem tableMap_values_aux (frags : List String) :
    ∀ st : ExtractSt,
      (∀ p ∈ st.tableMap, ∃ g, p.2 = g ++ ";" ∧ (findHeaderName g.toList).isSome) →
    ∀ p ∈ (frags.foldl extractStep st).tableMap,
      ∃ g, p.2 = g ++ ";" ∧ (findHeaderName g.toList).isSome := by
  induction frags with
  | nil => intro st h; exact h
  | cons f rest ih =>
    intro st h
    rw [List.foldl_cons]
    apply ih
    intro p hp
    unfold extractStep at hp
    cases hf : findHeaderName f.toList with
    | none =>
      rw [hf] at hp
      exact h p hp
    | some nameChars =>
      rw [hf] at hp
      simp only at hp
      rcases mem_updAssoc hp with hp | hp
      · exact ⟨f, by rw [hp], by rw [hf]; rfl⟩
      · exact h p hp

theorem tableMapOf_values (sql : String) :
    ∀ p ∈ tableMapOf sql, ∃ g, p.2 = g ++ ";" ∧ (findHeaderName g.toList).isSome :=
  tableMap_values_aux (splitStatements sql) ⟨[], []⟩ (by intro p hp; simp at hp)

/-! ## Pipeline-level consequences -/

theorem initSort_inv (sql : String) : SortInv (allTablesOf sql) (initSort id sql) := by
  constructor
  · exact List.Nodup.filter _ (allTablesOf_nodup sql)
  · exact List.nodup_nil
  · intro t _ h
    exact absurd h (List.not_mem_nil t)
  · intro t ht
    exact List.mem_of_mem_filter ht
  · intro t ht
    exact absurd ht (List.not_mem_nil t)
  · exact depsOf_keys sql

theorem finalSort_inv (sql : String) : SortInv (allTablesOf sql) (finalSort id sql) := by
  unfold finalSort runKahn
  exact kahnLoop_inv id (allTablesOf sql) (SortInv (allTablesOf sql))
    (fun st hne h => sortInv_step (allTablesOf sql) st hne h) _ _ (initSort_inv sql)

theorem finalSort_queue_nil (enum : List String → List String) (sql : String) :
    (finalSort enum sql).queue = [] := by
  unfold finalSort runKahn
  exact kahnLoop_drains enum (allTablesOf sql) _ _ (Nat.lt_succ_self _)

theorem orderedTablesW_nodup (sql : String) : (orderedTablesW id sql).Nodup :=
  (finalSort_inv sql).oNodup

theorem orderedTablesW_sub (sql : String) : ∀ t ∈ orderedTablesW id sql, t ∈ allTablesOf sql :=
  (finalSort_inv sql).oSub

/-- If some recognized table is missing from `ordered_tables`, the length
test of line 177 fires. -/
theorem ordered_length_ne_of_missing (sql : String) (t : String) (ht : t ∈ allTablesOf sql)
    (hmiss : t ∉ orderedTablesW id sql) :
    (orderedTablesW id sql).length ≠ (tableMapOf sql).length := by
  have hsub : List.Subperm (t :: orderedTablesW id sql) (allTablesOf sql) := by
    apply List.subperm_of_subset
    · exact List.nodup_cons.mpr ⟨hmiss, orderedTablesW_nodup sql⟩
    · intro x hx
      rcases List.mem_cons.mp hx with rfl | hx
      · exact ht
      · exact orderedTablesW_sub sql x hx
  have hlen := hsub.length_le
  have : (allTablesOf sql).length = (tableMapOf sql).length := List.length_map _ _
  simp only [List.length_cons] at hlen
  omega

/-- On the success path every recognized table was emitted. -/
theorem success_all_mem (sql : String)
    (hlen : (orderedTablesW id sql).length = (tableMapOf sql).length) :
    ∀ t ∈ allTablesOf sql, t ∈ orderedTablesW id sql := by
  have hsub : List.Subperm (orderedTablesW id sql) (allTablesOf sql) :=
    List.subperm_of_subset (orderedTablesW_nodup sql) (orderedTablesW_sub sql)
  have hlenA : (allTablesOf sql).length = (tableMapOf sql).length := List.length_map _ _
  have hperm : List.Perm (orderedTablesW id sql) (allTablesOf sql) :=
    hsub.perm_of_length_le (by omega)
  intro t ht
  exact hperm.mem_iff.mpr ht

theorem missing_mem (sql : String) (t : String) (ht : t ∈ allTablesOf sql)
    (hmiss : t ∉ orderedTablesW id sql) : t ∈ missingTablesW id sql := by
  unfold missingTablesW
  simp only [id_eq, List.mem_filter, decide_eq_true_eq]
  exact ⟨ht, hmiss⟩

/-- The three return paths of `order_sql_commands`. -/
theorem order_sql_cases (sql : String) :
    (hasCreateTable sql = false ∧ order_sql_commands sql = sql) ∨
    (hasCreateTable sql = true ∧ (orderedTablesW id sql).length ≠ (tableMapOf sql).length ∧
      missingTablesW id sql ≠ [] ∧
      order_sql_commands sql = warnText (missingTablesW id sql) sql) ∨
    (hasCreateTable sql = true ∧
      ((orderedTablesW id sql).length = (tableMapOf sql).length ∨ missingTablesW id sql = []) ∧
      order_sql_commands sql = renderSuccess (tableMapOf sql) (orderedTablesW id sql)) := by
  unfold order_sql_commands order_sql_commands_with
  split_ifs with h1 h2 h3
  · exact Or.inr (Or.inl ⟨h1, h2, h3, rfl⟩)
  · exact Or.inr (Or.inr ⟨h1, Or.inr (by push_neg at h3; exact h3), rfl⟩)
  · exact Or.inr (Or.inr ⟨h1, Or.inl (by push_neg at h2; exact h2), rfl⟩)
  · exact Or.inl ⟨by simpa using h1, rfl⟩

/-! ## Blocked tables -/

/-- One loop iteration cannot enqueue, order, or unblock a table `x` whose
dependency list would stay nonempty even after removing one occurrence of
the popped table. -/
theorem kahnStep_blocked (allT : List String) (hA : allT.Nodup) (st : SortSt) (x c : String)
    (qrest : List String) (hq : st.queue = c :: qrest) (hInv : SortInv allT st)
    (hxq : x ∉ st.queue) (hxo : x ∉ st.ordered)
    (hne : (getD st.deps x []).erase c ≠ []) :
    x ∉ (kahnStep id allT st).queue ∧ x ∉ (kahnStep id allT st).ordered ∧
      (getD (kahnStep id allT st).deps x [] = getD st.deps x [] ∨
        getD (kahnStep id allT st).deps x [] = (getD st.deps x []).erase c) ∧
      (kahnStep id allT st).ordered = st.ordered ++ [c] := by
  obtain ⟨deps, queue, ordered⟩ := st
  simp only at hq
  subst hq
  have hc_not_ord : c ∉ ordered := hInv.disj c (List.mem_cons_self _ _)
  have hxc : x ≠ c := fun he => hxq (he ▸ List.mem_cons_self _ _)
  have hxqrest : x ∉ qrest := fun h => hxq (List.mem_cons_of_mem _ h)
  rw [kahnStep_cons, if_neg hc_not_ord]
  have hremnd : (id (remainingOf allT (ordered ++ [c]))).Nodup := List.Nodup.filter _ hA
  obtain ⟨hdisj, hqmem⟩ := scanDependents_blocked c (id (remainingOf allT (ordered ++ [c])))
    (deps, qrest) x hremnd hne hxqrest
  refine ⟨hqmem, ?_, hdisj, rfl⟩
  intro hmem
  rcases List.mem_append.mp hmem with h | h
  · exact hxo h
  · exact hxc (List.mem_singleton.mp h)

/-- A table with a nonempty dependency list containing an in-batch name is
not initially ready (line 158), hence not seeded. -/
theorem not_in_seed (sql x e : String) (he : e ∈ getD (depsOf sql) x [])
    (heA : e ∈ allTablesOf sql) : x ∉ (initSort id sql).queue := by
  intro hmem
  unfold initSort seedQueue at hmem
  have hr := (List.mem_filter.mp hmem).2
  unfold ready0 at hr
  rcases Bool.or_eq_true _ _ |>.mp hr with hr | hr
  · rw [List.isEmpty_iff.mp hr] at he
    exact absurd he (List.not_mem_nil e)
  · have := (List.all_eq_true.mp hr) e he
    rw [decide_eq_true_eq] at this
    exact this heA

/-- A recognized table that the loop never emits sends the execution to the
warning return of line 180, with the table listed among the missing. -/
theorem never_ordered_conclusion (sql x : String) (hct : hasCreateTable sql = true)
    (hx : x ∈ allTablesOf sql) (hno : x ∉ orderedTablesW id sql) :
    order_sql_commands sql = warnText (missingTablesW id sql) sql ∧
      x ∈ missingTablesW id sql := by
  have hlen := ordered_length_ne_of_missing sql x hx hno
  have hmem := missing_mem sql x hx hno
  have hmne : missingTablesW id sql ≠ [] := List.ne_nil_of_mem hmem
  rcases order_sql_cases sql with ⟨h, _⟩ | ⟨_, _, _, h⟩ | ⟨_, hcond, _⟩
  · rw [hct] at h
    exact absurd h (by simp)
  · exact ⟨h, hmem⟩
  · rcases hcond with hcond | hcond
    · exact absurd hcond hlen
    · exact absurd hcond hmne

theorem successPath_length (sql : String) (h : successPath sql) :
    (orderedTablesW id sql).length = (tableMapOf sql).length := by
  rcases h.2 with hlen | hmiss
  · exact hlen
  · have hall : ∀ t ∈ allTablesOf sql, t ∈ orderedTablesW id sql := by
      intro t ht
      by_contra hno
      exact absurd hmiss (List.ne_nil_of_mem (missing_mem sql t ht hno))
    have h1 : List.Subperm (orderedTablesW id sql) (allTablesOf sql) :=
      List.subperm_of_subset (orderedTablesW_nodup sql) (orderedTablesW_sub sql)
    have h2 : List.Subperm (allTablesOf sql) (orderedTablesW id sql) :=
      List.subperm_of_subset (allTablesOf_nodup sql) hall
    have hl1 := h1.length_le
    have hl2 := h2.length_le
    have : (allTablesOf sql).length = (tableMapOf sql).length := List.length_map _ _
    omega

/-- Every initially seeded table is eventually emitted. -/
theorem seed_mem_ordered (sql x : String) (hx : x ∈ (initSort id sql).queue) :
    x ∈ orderedTablesW id sql := by
  unfold orderedTablesW finalSort runKahn
  exact kahnLoop_mem_ordered id (allTablesOf sql) _ _
    (by
      have := finalSort_queue_nil id sql
      unfold finalSort runKahn at this
      exact this) x (Or.inl hx)

/-- A table all of whose listed dependencies are out of the batch (in
particular one with no dependencies) is initially ready and seeded. -/
theorem allout_mem_seed (sql t : String) (ht : t ∈ allTablesOf sql)
    (hout : ∀ d ∈ getD (depsOf sql) t [], d ∉ allTablesOf sql) :
    t ∈ (initSort id sql).queue := by
  unfold initSort seedQueue
  apply List.mem_filter.mpr
  refine ⟨ht, ?_⟩
  unfold ready0
  apply (Bool.or_eq_true _ _).mpr
  right
  exact List.all_eq_true.mpr fun d hd => decide_eq_true (hout d hd)

/-- A recognized table with one in-batch and one out-of-batch listed
dependency is never seeded, never unblocked, and therefore never emitted:
the out-of-batch name is never popped (the queue only holds batch tables),
so the dependency list never empties. -/
theorem mixed_dep_never_ordered (sql t d e : String) (ht : t ∈ allTablesOf sql)
    (hd : d ∈ getD (depsOf sql) t []) (hdout : d ∉ allTablesOf sql)
    (he : e ∈ getD (depsOf sql) t []) (heA : e ∈ allTablesOf sql) :
    t ∉ orderedTablesW id sql := by
  have hA := allTablesOf_nodup sql
  have key : ∀ fuel st, (SortInv (allTablesOf sql) st ∧ t ∉ st.queue ∧ t ∉ st.ordered ∧
      d ∈ getD st.deps t []) →
      (SortInv (allTablesOf sql) (kahnLoop id (allTablesOf sql) fuel st) ∧
        t ∉ (kahnLoop id (allTablesOf sql) fuel st).queue ∧
        t ∉ (kahnLoop id (allTablesOf sql) fuel st).ordered ∧
        d ∈ getD (kahnLoop id (allTablesOf sql) fuel st).deps t []) := by
    apply kahnLoop_inv
    intro st hne ⟨hInv, hq, ho, hdep⟩
    cases hqe : st.queue with
    | nil => exact absurd hqe hne
    | cons c qrest =>
      have hcA : c ∈ allTablesOf sql := hInv.qSub c (hqe ▸ List.mem_cons_self _ _)
      have hdc : d ≠ c := fun hdc => hdout (hdc ▸ hcA)
      have hmem : d ∈ (getD st.deps t []).erase c := (List.mem_erase_of_ne hdc).mpr hdep
      obtain ⟨hq', ho', hdisj, _⟩ := kahnStep_blocked (allTablesOf sql) hA st t c qrest hqe
        hInv hq ho (List.ne_nil_of_mem hmem)
      refine ⟨sortInv_step _ st hne hInv, hq', ho', ?_⟩
      rcases hdisj with h | h
      · rw [h]; exact hdep
      · rw [h]; exact hmem
  have h0 : SortInv (allTablesOf sql) (initSort id sql) ∧ t ∉ (initSort id sql).queue ∧
      t ∉ (initSort id sql).ordered ∧ d ∈ getD (initSort id sql).deps t [] :=
    ⟨initSort_inv sql, not_in_seed sql t e he heA, List.not_mem_nil t, hd⟩
  exact (key _ _ h0).2.2.1

/-- Two recognized tables that (transitively immediately) reference each
other are never seeded and never unblocked: each blocks the other. -/
theorem mutual_dep_never_ordered (sql x y : String) (hx : x ∈ allTablesOf sql)
    (hy : y ∈ allTablesOf sql) (hxy : y ∈ getD (depsOf sql) x [])
    (hyx : x ∈ getD (depsOf sql) y []) :
    x ∉ orderedTablesW id sql ∧ y ∉ orderedTablesW id sql := by
  have hA := allTablesOf_nodup sql
  have key : ∀ fuel st, (SortInv (allTablesOf sql) st ∧
      (x ∉ st.queue ∧ x ∉ st.ordered ∧ y ∈ getD st.deps x []) ∧
      (y ∉ st.queue ∧ y ∉ st.ordered ∧ x ∈ getD st.deps y [])) →
      (SortInv (allTablesOf sql) (kahnLoop id (allTablesOf sql) fuel st) ∧
      (x ∉ (kahnLoop id (allTablesOf sql) fuel st).queue ∧
        x ∉ (kahnLoop id (allTablesOf sql) fuel st).ordered ∧
        y ∈ getD (kahnLoop id (allTablesOf sql) fuel st).deps x []) ∧
      (y ∉ (kahnLoop id (allTablesOf sql) fuel st).queue ∧
        y ∉ (kahnLoop id (allTablesOf sql) fuel st).ordered ∧
        x ∈ getD (kahnLoop id (allTablesOf sql) fuel st).deps y [])) := by
    apply kahnLoop_inv
    intro st hne ⟨hInv, ⟨hxq, hxo, hxdep⟩, ⟨hyq, hyo, hydep⟩⟩
    cases hqe : st.queue with
    | nil => exact absurd hqe hne
    | cons c qrest =>
      have hyc : y ≠ c := fun hc => hyq (hc ▸ (hqe ▸ List.mem_cons_self _ _))
      have hxc : x ≠ c := fun hc => hxq (hc ▸ (hqe ▸ List.mem_cons_self _ _))
      have hymem : y ∈ (getD st.deps x []).erase c := (List.mem_erase_of_ne hyc).mpr hxdep
      have hxmem : x ∈ (getD st.deps y []).erase c := (List.mem_erase_of_ne hxc).mpr hydep
      obtain ⟨hxq', hxo', hxdisj, _⟩ := kahnStep_blocked (allTablesOf sql) hA st x c qrest hqe
        hInv hxq hxo (List.ne_nil_of_mem hymem)
      obtain ⟨hyq', hyo', hydisj, _⟩ := kahnStep_blocked (allTablesOf sql) hA st y c qrest hqe
        hInv hyq hyo (List.ne_nil_of_mem hxmem)
      refine ⟨sortInv_step _ st hne hInv, ⟨hxq', hxo', ?_⟩, ⟨hyq', hyo', ?_⟩⟩
      · rcases hxdisj with h | h
        · rw [h]; exact hxdep
        · rw [h]; exact hymem
      · rcases hydisj with h | h
        · rw [h]; exact hydep
        · rw [h]; exact hxmem
  have h0 := key (sortMeasure (initSort id sql) + 1) (initSort id sql)
    ⟨initSort_inv sql,
      ⟨not_in_seed sql x y hxy hy, List.not_mem_nil x, hxy⟩,
      ⟨not_in_seed sql y x hyx hx, List.not_mem_nil y, hyx⟩⟩
  exact ⟨h0.2.1.2.1, h0.2.2.2.1⟩

/-- A recognized table whose dependency list counts some in-batch name at
least twice is never emitted: that name is popped at most once, so at most
one of its occurrences is ever removed. -/
theorem dup_dep_never_ordered (sql t d : String) (ht : t ∈ allTablesOf sql)
    (hd : d ∈ allTablesOf sql) (hcount : 2 ≤ List.count d (getD (depsOf sql) t [])) :
    t ∉ orderedTablesW id sql := by
  have hA := allTablesOf_nodup sql
  have key : ∀ fuel st, (SortInv (allTablesOf sql) st ∧ t ∉ st.queue ∧ t ∉ st.ordered ∧
      2 ≤ List.count d (getD st.deps t []) + (if d ∈ st.ordered then 1 else 0)) →
      (SortInv (allTablesOf sql) (kahnLoop id (allTablesOf sql) fuel st) ∧
        t ∉ (kahnLoop id (allTablesOf sql) fuel st).queue ∧
        t ∉ (kahnLoop id (allTablesOf sql) fuel st).ordered ∧
        2 ≤ List.count d (getD (kahnLoop id (allTablesOf sql) fuel st).deps t []) +
          (if d ∈ (kahnLoop id (allTablesOf sql) fuel st).ordered then 1 else 0)) := by
    apply kahnLoop_inv
    intro st hne ⟨hInv, hq, ho, hsum⟩
    cases hqe : st.queue with
    | nil => exact absurd hqe hne
    | cons c qrest =>
      by_cases hcd : c = d
      · subst hcd
        have hc_not_ord : c ∉ st.ordered := hInv.disj c (hqe ▸ List.mem_cons_self _ _)
        rw [if_neg hc_not_ord] at hsum
        have hcnt : 2 ≤ List.count c (getD st.deps t []) := by omega
        have hcnt' : 1 ≤ List.count c ((getD st.deps t []).erase c) := by
          rw [List.count_erase_self]
          omega
        have hmem : c ∈ (getD st.deps t []).erase c := by
          have := List.count_pos_iff.mp (by omega : 0 < ((getD st.deps t []).erase c).count c)
          exact this
        obtain ⟨hq', ho', hdisj, hord⟩ := kahnStep_blocked (allTablesOf sql) hA st t c qrest hqe
          hInv hq ho (List.ne_nil_of_mem hmem)
        refine ⟨sortInv_step _ st hne hInv, hq', ho', ?_⟩
        have hdo2 : c ∈ (kahnStep id (allTablesOf sql) st).ordered := by
          rw [hord]
          exact List.mem_append_right _ (List.mem_singleton_self c)
        rw [if_pos hdo2]
        rcases hdisj with h | h
        · rw [h]; omega
        · rw [h, List.count_erase_self]; omega
      · have hdc : d ≠ c := fun h => hcd h.symm
        have hcnt : 1 ≤ List.count d (getD st.deps t []) := by
          by_cases hdor : d ∈ st.ordered
          · rw [if_pos hdor] at hsum; omega
          · rw [if_neg hdor] at hsum; omega
        have hmem : d ∈ (getD st.deps t []).erase c := by
          apply (List.mem_erase_of_ne hdc).mpr
          exact List.count_pos_iff.mp (by omega)
        obtain ⟨hq', ho', hdisj, hord⟩ := kahnStep_blocked (allTablesOf sql) hA st t c qrest hqe
          hInv hq ho (List.ne_nil_of_mem hmem)
        refine ⟨sortInv_step _ st hne hInv, hq', ho', ?_⟩
        have hdomem : d ∈ (kahnStep id (allTablesOf sql) st).ordered ↔ d ∈ st.ordered := by
          rw [hord]
          simp [hdc]
        have hcnteq : List.count d (getD (kahnStep id (allTablesOf sql) st).deps t []) =
            List.count d (getD st.deps t []) := by
          rcases hdisj with h | h
          · rw [h]
          · rw [h, List.count_erase_of_ne hdc]
        rw [hcnteq]
        by_cases hdor : d ∈ st.ordered
        · rw [if_pos (hdomem.mpr hdor)]
          rw [if_pos hdor] at hsum
          omega
        · rw [if_neg (fun hc => hdor (hdomem.mp hc))]
          rw [if_neg hdor] at hsum
          omega
  have hd0 : d ∈ getD (depsOf sql) t [] := List.count_pos_iff.mp (by omega)
  have h0 := key (sortMeasure (initSort id sql) + 1) (initSort id sql)
    ⟨initSort_inv sql, not_in_seed sql t d hd0 hd, List.not_mem_nil t, by simp [initSort, hcount]⟩
  exact h0.2.2.1

/-- If every fragment fails the header regex, extraction leaves the dicts
empty. -/
theorem extract_none (frags : List String)
    (h : ∀ f ∈ frags, findHeaderName f.toList = none) :
    ∀ st : ExtractSt, frags.foldl extractStep st = st := by
  induction frags with
  | nil => intro st; rfl
  | cons f rest ih =>
    intro st
    rw [List.foldl_cons]
    have hf : extractStep st f = st := by
      unfold extractStep
      rw [h f (List.mem_cons_self _ _)]
    rw [hf]
    exact ih (fun g hg => h g (List.mem_cons_of_mem _ hg)) st

theorem string_append_semi_inj (f g : String) (h : f ++ ";" = g ++ ";") : f = g := by
  have hd : f.data ++ ";".data = g.data ++ ";".data := by
    have := congrArg String.data h
    simpa [String.data_append] using this
  have : f.data = g.data := List.append_cancel_right hd
  cases f
  cases g
  simp only at this
  rw [this]

/-- Under the invariant the popped head is fresh, so line 165 appends it. -/
theorem kahnStep_ordered_append (enum : List String → List String) (allT : List String)
    (st : SortSt) (c : String) (qrest : List String) (hq : st.queue = c :: qrest)
    (hc : c ∉ st.ordered) :
    (kahnStep enum allT st).ordered = st.ordered ++ [c] := by
  obtain ⟨deps, queue, ordered⟩ := st
  simp only at hq hc
  subst hq
  rw [kahnStep_cons, if_neg hc]

/-- Ordering correctness core: if `B` is listed among `A`'s extracted
dependencies and both are recognized, then in any run in which every table
is emitted, `B` is emitted strictly before `A`.  `A` can only be enqueued
after its dependency list empties, which requires `B` to have been popped
(and hence appended to `ordered_tables`) first. -/
theorem dep_emitted_before (sql A B : String) (hA : A ∈ allTablesOf sql)
    (hB : B ∈ allTablesOf sql) (hdep : B ∈ getD (depsOf sql) A [])
    (hsucc : (orderedTablesW id sql).length = (tableMapOf sql).length) :
    ∃ l1 l2, orderedTablesW id sql = l1 ++ A :: l2 ∧ B ∈ l1 := by
  have hAnd := allTablesOf_nodup sql
  have key : ∀ fuel st, (SortInv (allTablesOf sql) st ∧
      ((A ∉ st.ordered ∧ A ∉ st.queue ∧ B ∈ getD st.deps A []) ∨
        (B ∈ st.ordered ∧ A ∉ st.ordered) ∨
        (∃ l1 l2, st.ordered = l1 ++ A :: l2 ∧ B ∈ l1))) →
      (SortInv (allTablesOf sql) (kahnLoop id (allTablesOf sql) fuel st) ∧
      ((A ∉ (kahnLoop id (allTablesOf sql) fuel st).ordered ∧
          A ∉ (kahnLoop id (allTablesOf sql) fuel st).queue ∧
          B ∈ getD (kahnLoop id (allTablesOf sql) fuel st).deps A []) ∨
        (B ∈ (kahnLoop id (allTablesOf sql) fuel st).ordered ∧
          A ∉ (kahnLoop id (allTablesOf sql) fuel st).ordered) ∨
        (∃ l1 l2, (kahnLoop id (allTablesOf sql) fuel st).ordered = l1 ++ A :: l2 ∧
          B ∈ l1))) := by
    apply kahnLoop_inv
    intro st hne ⟨hInv, hcase⟩
    cases hqe : st.queue with
    | nil => exact absurd hqe hne
    | cons c qrest =>
      have hcord : c ∉ st.ordered := hInv.disj c (hqe ▸ List.mem_cons_self _ _)
      have hoapp := kahnStep_ordered_append id (allTablesOf sql) st c qrest hqe hcord
      refine ⟨sortInv_step _ st hne hInv, ?_⟩
      rcases hcase with ⟨hAo, hAq, hBdep⟩ | ⟨hBo, hAo⟩ | ⟨l1, l2, hdec, hBl1⟩
      · have hAc : A ≠ c := fun h => hAq (h ▸ (hqe ▸ List.mem_cons_self _ _))
        by_cases hcB : c = B
        · subst hcB
          right
          left
          constructor
          · rw [hoapp]
            exact List.mem_append_right _ (List.mem_singleton_self c)
          · rw [hoapp]
            intro hmem
            rcases List.mem_append.mp hmem with h | h
            · exact hAo h
            · exact hAc (List.mem_singleton.mp h)
        · have hBc : B ≠ c := fun h => hcB h.symm
          have hmem : B ∈ (getD st.deps A []).erase c := (List.mem_erase_of_ne hBc).mpr hBdep
          obtain ⟨hq', ho', hdisj, _⟩ := kahnStep_blocked (allTablesOf sql) hAnd st A c qrest
            hqe hInv hAq hAo (List.ne_nil_of_mem hmem)
          left
          refine ⟨ho', hq', ?_⟩
          rcases hdisj with h | h
          · rw [h]; exact hBdep
          · rw [h]; exact hmem
      · by_cases hcA : c = A
        · subst hcA
          right
          right
          exact ⟨st.ordered, [], by rw [hoapp], hBo⟩
        · right
          left
          constructor
          · rw [hoapp]
            exact List.mem_append_left _ hBo
          · rw [hoapp]
            intro hmem
            rcases List.mem_append.mp hmem with h | h
            · exact hAo h
            · exact hcA (List.mem_singleton.mp h).symm
      · right
        right
        refine ⟨l1, l2 ++ [c], ?_, hBl1⟩
        rw [hoapp, hdec]
        simp
  have h0 := key (sortMeasure (initSort id sql) + 1) (initSort id sql)
    ⟨initSort_inv sql,
      Or.inl ⟨List.not_mem_nil A, not_in_seed sql A B hdep hB, hdep⟩⟩
  have hAfin : A ∈ orderedTablesW id sql := success_all_mem sql hsucc A hA
  rcases h0.2 with ⟨hAo, _, _⟩ | ⟨_, hAo⟩ | hdone
  · exact absurd hAfin hAo
  · exact absurd hAfin hAo
  · exact hdone

/-! ## Claims -/

set_option maxRecDepth 8000

instance (sql : String) : Decidable (successPath sql) := by
  unfold successPath
  infer_instance

/-- Input refuting claim C1: table `b` references the in-batch table `a`
and the out-of-batch table `c`. -/
def c1Input : String :=
  "CREATE TABLE a (id INT); CREATE TABLE b (id INT, a_id INT REFERENCES a(id), c_id INT REFERENCES c(id));"

/-- C1 counterexample: the claim says a table whose in-batch dependencies
have all been emitted is itself emitted even if it also references tables
absent from the batch.  Here `b` depends on in-batch `a` and out-of-batch
`c`; `a` is emitted, yet `b` is not: the run returns the cycle warning
naming `b` instead of ordering `b` after `a`. -/
theorem claim_C1_counterexample :
    getD (depsOf c1Input) "b" [] = ["a", "c"] ∧ "c" ∉ allTablesOf c1Input ∧
      "a" ∈ orderedTablesW id c1Input ∧ "b" ∉ orderedTablesW id c1Input ∧
      order_sql_commands c1Input = warnText ["b"] c1Input := by decide

/-- C1 amended: an out-of-batch dependency never blocks only through the
initial-ready test: a table all of whose listed dependencies are outside
the batch is seeded and emitted; but a table with both an in-batch and an
out-of-batch dependency is never emitted and the batch takes the warning
path naming it, because the loop enqueues a table only when its whole
dependency list (out-of-batch names included) has been emptied. -/
theorem claim_C1_amended :
    (∀ sql t, t ∈ allTablesOf sql → (∀ d ∈ getD (depsOf sql) t [], d ∉ allTablesOf sql) →
      t ∈ orderedTablesW id sql) ∧
    (∀ sql t d e, hasCreateTable sql = true → t ∈ allTablesOf sql →
      d ∈ getD (depsOf sql) t [] → d ∉ allTablesOf sql →
      e ∈ getD (depsOf sql) t [] → e ∈ allTablesOf sql →
      t ∉ orderedTablesW id sql ∧
        order_sql_commands sql = warnText (missingTablesW id sql) sql ∧
        t ∈ missingTablesW id sql) := by
  constructor
  · intro sql t ht hout
    exact seed_mem_ordered sql t (allout_mem_seed sql t ht hout)
  · intro sql t d e hct ht hd hdout he heA
    have hno := mixed_dep_never_ordered sql t d e ht hd hdout he heA
    obtain ⟨hw, hm⟩ := never_ordered_conclusion sql t hct ht hno
    exact ⟨hno, hw, hm⟩

/-- C1 witness: the amended claim applied at `c1Input`: table `a` (its
dependency list is empty) is emitted, while table `b` (in-batch dependency
`a`, out-of-batch dependency `c`) triggers the warning path. -/
theorem claim_C1_witness :
    "a" ∈ orderedTablesW id c1Input ∧
      ("b" ∉ orderedTablesW id c1Input ∧
        order_sql_commands c1Input = warnText (missingTablesW id c1Input) c1Input ∧
        "b" ∈ missingTablesW id c1Input) :=
  ⟨claim_C1_amended.1 c1Input "a" (by decide) (by decide),
    claim_C1_amended.2 c1Input "b" "c" "a" (by decide) (by decide) (by decide) (by decide)
      (by decide) (by decide)⟩

/-- Input refuting claim C2: table `b` references the in-batch table `a`
twice. -/
def c2Input : String :=
  "CREATE TABLE a (id INT); CREATE TABLE b (x INT REFERENCES a(x), y INT REFERENCES a(y));"

/-- C2 counterexample: the claim says duplicated references are collapsed
so that a table referencing the same in-batch table twice is still
ordered.  The extraction actually stores the list `["a", "a"]` with the
duplicate retained, and `b` is reported unresolvable (warning path), not
ordered after `a`. -/
theorem claim_C2_counterexample :
    getD (depsOf c2Input) "b" [] = ["a", "a"] ∧ "a" ∈ allTablesOf c2Input ∧
      "a" ∈ orderedTablesW id c2Input ∧ "b" ∉ orderedTablesW id c2Input ∧
      order_sql_commands c2Input = warnText ["b"] c2Input := by decide

/-- C2 amended: the referenced names are collected as a list that retains
duplicates; a table whose dependency list counts some in-batch name at
least twice is never emitted and the run returns the warning form naming
it, because each emission removes only one occurrence. -/
theorem claim_C2_amended :
    ∀ sql t d, hasCreateTable sql = true → t ∈ allTablesOf sql → d ∈ allTablesOf sql →
      2 ≤ List.count d (getD (depsOf sql) t []) →
      t ∉ orderedTablesW id sql ∧
        order_sql_commands sql = warnText (missingTablesW id sql) sql ∧
        t ∈ missingTablesW id sql := by
  intro sql t d hct ht hd hcnt
  have hno := dup_dep_never_ordered sql t d ht hd hcnt
  obtain ⟨hw, hm⟩ := never_ordered_conclusion sql t hct ht hno
  exact ⟨hno, hw, hm⟩

/-- C2 witness: the amended claim applied at `c2Input` with the duplicated
dependency `a` of table `b`. -/
theorem claim_C2_witness :
    "b" ∉ orderedTablesW id c2Input ∧
      order_sql_commands c2Input = warnText (missingTablesW id c2Input) c2Input ∧
      "b" ∈ missingTablesW id c2Input :=
  claim_C2_amended c2Input "b" "a" (by decide) (by decide) (by decide) (by decide)

/-- Scenario A input of the specification. -/
def c3Input : String :=
  "CREATE TABLE b (id INT, a_id INT REFERENCES a(id)); CREATE TABLE a (id INT);"

/-- C3: on the success path, whenever `B` is among `A`'s extracted
dependencies and both are recognized tables, `B`'s statement is emitted
strictly before `A`'s, and the returned string is the success rendering of
the emission order. -/
theorem claim_C3 :
    ∀ sql A B, successPath sql → A ∈ allTablesOf sql → B ∈ allTablesOf sql →
      B ∈ getD (depsOf sql) A [] →
      (∃ l1 l2, orderedTablesW id sql = l1 ++ A :: l2 ∧ B ∈ l1) ∧
        order_sql_commands sql = renderSuccess (tableMapOf sql) (orderedTablesW id sql) := by
  intro sql A B hsp hA hB hdep
  have hlen := successPath_length sql hsp
  refine ⟨dep_emitted_before sql A B hA hB hdep hlen, ?_⟩
  rcases order_sql_cases sql with ⟨h, _⟩ | ⟨_, hne, _, _⟩ | ⟨_, _, h⟩
  · exact absurd (hsp.1.symm.trans h) (by decide)
  · exact absurd hlen hne
  · exact h

/-- C3 witness: scenario A: `b` references `a`, the input lists `b` first,
and the ordered output emits `a` strictly before `b`. -/
theorem claim_C3_witness :
    (∃ l1 l2, orderedTablesW id c3Input = l1 ++ "b" :: l2 ∧ "a" ∈ l1) ∧
      order_sql_commands c3Input =
        renderSuccess (tableMapOf c3Input) (orderedTablesW id c3Input) :=
  claim_C3 c3Input "b" "a" (by decide) (by decide) (by decide) (by decide)

/-- Scenario C input of the specification: mutual foreign keys. -/
def c4Input : String :=
  "CREATE TABLE x (a INT REFERENCES y (a)); CREATE TABLE y (b INT REFERENCES x (b));"

/-- C4: two recognized tables that each reference the other make the run
return the warning form naming both, with the original input appended
verbatim (see `warnText`); the loop terminates (`finalSort_queue_nil`),
never looping or raising. -/
theorem claim_C4 :
    ∀ sql x y, hasCreateTable sql = true → x ∈ allTablesOf sql → y ∈ allTablesOf sql →
      x ≠ y → y ∈ getD (depsOf sql) x [] → x ∈ getD (depsOf sql) y [] →
      order_sql_commands sql = warnText (missingTablesW id sql) sql ∧
        x ∈ missingTablesW id sql ∧ y ∈ missingTablesW id sql := by
  intro sql x y hct hx hy _hxy hdxy hdyx
  obtain ⟨hxno, hyno⟩ := mutual_dep_never_ordered sql x y hx hy hdxy hdyx
  obtain ⟨hw, hxm⟩ := never_ordered_conclusion sql x hct hx hxno
  exact ⟨hw, hxm, missing_mem sql y hy hyno⟩

/-- C4 witness: scenario C: `x` and `y` reference each other, the run
returns the warning naming both over the unmodified input. -/
theorem claim_C4_witness :
    order_sql_commands c4Input = warnText (missingTablesW id c4Input) c4Input ∧
      "x" ∈ missingTablesW id c4Input ∧ "y" ∈ missingTablesW id c4Input :=
  claim_C4 c4Input "x" "y" (by decide) (by decide) (by decide) (by decide) (by decide)
    (by decide)

/-- C5: an input with no case-insensitive `CREATE TABLE` substring is
returned unchanged, verbatim. -/
theorem claim_C5 : ∀ sql, hasCreateTable sql = false → order_sql_commands sql = sql := by
  intro sql h
  unfold order_sql_commands order_sql_commands_with
  rw [if_neg]
  rw [h]
  exact Bool.false_ne_true

/-- C5 witness: scenario B: pure DML passes through. -/
theorem claim_C5_witness :
    hasCreateTable "SELECT * FROM users;" = false ∧
      order_sql_commands "SELECT * FROM users;" = "SELECT * FROM users;" :=
  ⟨by decide, claim_C5 "SELECT * FROM users;" (by decide)⟩

/-- Input for the C6 witness: scenario D, a three-table chain. -/
def c6Input : String :=
  "CREATE TABLE c (i INT REFERENCES b(i)); CREATE TABLE b (i INT REFERENCES a(i)); CREATE TABLE a (i INT);"

/-- C6: on the success path the emitted tables are exactly the recognized
tables, each exactly once: the emission list is duplicate-free and has the
same members as the extracted table set. -/
theorem claim_C6 :
    ∀ sql, successPath sql →
      (orderedTablesW id sql).Nodup ∧
        (∀ t, t ∈ orderedTablesW id sql ↔ t ∈ allTablesOf sql) ∧
        order_sql_commands sql = renderSuccess (tableMapOf sql) (orderedTablesW id sql) := by
  intro sql hsp
  have hlen := successPath_length sql hsp
  refine ⟨orderedTablesW_nodup sql, ?_, ?_⟩
  · intro t
    exact ⟨fun h => orderedTablesW_sub sql t h, fun h => success_all_mem sql hlen t h⟩
  · rcases order_sql_cases sql with ⟨h, _⟩ | ⟨_, hne, _, _⟩ | ⟨_, _, h⟩
    · exact absurd (hsp.1.symm.trans h) (by decide)
    · exact absurd hlen hne
    · exact h

/-- C6 witness: scenario D: three chained tables, all emitted exactly
once. -/
theorem claim_C6_witness :
    (orderedTablesW id c6Input).Nodup ∧
      ("a" ∈ orderedTablesW id c6Input ↔ "a" ∈ allTablesOf c6Input) :=
  ⟨(claim_C6 c6Input (by decide)).1, (claim_C6 c6Input (by decide)).2.1 "a"⟩

/-- C7: totality: for every input string the topological loop drains its
queue within the supplied fuel (the Python `while` loop terminates), and
the result is one of the three return forms: the verbatim input, the
warning text, or the success rendering. -/
theorem claim_C7 :
    ∀ sql, (finalSort id sql).queue = [] ∧
      (order_sql_commands sql = sql ∨
        order_sql_commands sql = warnText (missingTablesW id sql) sql ∨
        order_sql_commands sql = renderSuccess (tableMapOf sql) (orderedTablesW id sql)) := by
  intro sql
  refine ⟨finalSort_queue_nil id sql, ?_⟩
  rcases order_sql_cases sql with ⟨_, h⟩ | ⟨_, _, _, h⟩ | ⟨_, _, h⟩
  · exact Or.inl h
  · exact Or.inr (Or.inl h)
  · exact Or.inr (Or.inr h)

/-- Input refuting claim C8: two independent tables, whose emission order
follows whatever order the table-name set is enumerated in. -/
def c8Input : String := "CREATE TABLE a (x INT); CREATE TABLE b (y INT);"

/-- C8 counterexample: the output depends on the enumeration order of the
set `all_tables` (CPython iterates it in hash-dependent order, which
varies across processes under hash randomization): enumerating the same
two-element table set in reversed order is a permutation of it yet
produces a different output string, so the seeding is not tied to
insertion order and cross-run determinism fails. -/
theorem claim_C8_counterexample :
    order_sql_commands_with List.reverse c8Input ≠ order_sql_commands c8Input ∧
      ∀ l : List String, List.Perm (List.reverse l) l :=
  ⟨by decide, fun l => List.reverse_perm l⟩

/-- C8 amended: the ready queue is seeded from the SET of the batch's
table names in whatever order that set is enumerated; for every
enumeration (any permutation of the first-insertion listing) the seeded
tables are exactly the initially-ready ones, and the output is a function
of the input only relative to a fixed enumeration order. -/
theorem claim_C8_amended :
    ∀ enum : List String → List String, (∀ l : List String, List.Perm (enum l) l) →
      ∀ sql t, t ∈ seedQueue enum (allTablesOf sql) (depsOf sql) ↔
        t ∈ allTablesOf sql ∧ ready0 (allTablesOf sql) (depsOf sql) t = true := by
  intro enum hperm sql t
  unfold seedQueue
  rw [List.mem_filter]
  constructor
  · rintro ⟨h1, h2⟩
    exact ⟨(hperm _).mem_iff.mp h1, h2⟩
  · rintro ⟨h1, h2⟩
    exact ⟨(hperm _).mem_iff.mpr h1, h2⟩

/-- C8 witness: the amended claim applied to the reversed enumeration on
`c8Input`: `a` is initially ready, hence seeded under that enumeration as
well. -/
theorem claim_C8_witness :
    "a" ∈ seedQueue List.reverse (allTablesOf c8Input) (depsOf c8Input) :=
  (claim_C8_amended List.reverse (fun l => List.reverse_perm l) c8Input "a").mpr (by decide)

/-- Input for the C9 witness: a recognized table plus a DML fragment. -/
def c9Input : String := "CREATE TABLE a (x INT); INSERT INTO a VALUES (1)"

/-- C9: a fragment with no recognized `CREATE TABLE` header is never among
the statements the success path emits: every emitted statement is a
recognized fragment with `";"` re-appended. -/
theorem claim_C9 :
    ∀ sql f, successPath sql → f ∈ splitStatements sql →
      findHeaderName f.toList = none →
      (f ++ ";") ∉ emittedStatements sql ∧
        order_sql_commands sql = renderSuccess (tableMapOf sql) (orderedTablesW id sql) := by
  intro sql f hsp _hfsplit hfnone
  constructor
  · intro hmem
    unfold emittedStatements at hmem
    obtain ⟨t, htord, hval⟩ := List.mem_map.mp hmem
    have htall : t ∈ allTablesOf sql := orderedTablesW_sub sql t htord
    have hpair := getD_mem_of_mem_keys (m := tableMapOf sql) htall ""
    obtain ⟨g, hg, hgsome⟩ := tableMapOf_values sql _ hpair
    simp only at hg
    have heq : g ++ ";" = f ++ ";" := by rw [← hg, hval]
    have hgf := string_append_semi_inj g f heq
    rw [hgf, hfnone] at hgsome
    simp at hgsome
  · rcases order_sql_cases sql with ⟨h, _⟩ | ⟨_, hne, _, _⟩ | ⟨_, _, h⟩
    · exact absurd (hsp.1.symm.trans h) (by decide)
    · exact absurd (successPath_length sql hsp) hne
    · exact h

/-- C9 witness: the `INSERT` fragment of `c9Input` is dropped from the
successful output. -/
theorem claim_C9_witness :
    ("INSERT INTO a VALUES (1)" ++ ";") ∉ emittedStatements c9Input ∧
      order_sql_commands c9Input =
        renderSuccess (tableMapOf c9Input) (orderedTablesW id c9Input) :=
  claim_C9 c9Input "INSERT INTO a VALUES (1)" (by decide) (by decide) (by decide)

/-- C10: an input containing `CREATE TABLE` case-insensitively in which no
fragment matches the header pattern takes the success path with an empty
table set: the result is exactly the stripped announcement line and every
character of the input is discarded. -/
theorem claim_C10 :
    ∀ sql, hasCreateTable sql = true →
      (∀ f ∈ splitStatements sql, findHeaderName f.toList = none) →
      order_sql_commands sql = "# âœ… DDL Commands sorted by FOREIGN KEY dependency:" := by
  intro sql hct hnone
  have hext : extractAll sql = ⟨[], []⟩ := extract_none (splitStatements sql) hnone ⟨[], []⟩
  have htm : tableMapOf sql = [] := by unfold tableMapOf; rw [hext]
  have hdp : depsOf sql = [] := by unfold depsOf; rw [hext]
  have hat : allTablesOf sql = [] := by unfold allTablesOf; rw [htm]; rfl
  have ho : orderedTablesW id sql = [] := by
    unfold orderedTablesW finalSort runKahn initSort
    rw [hdp, hat]
    rfl
  rcases order_sql_cases sql with ⟨h, _⟩ | ⟨_, hne, _, _⟩ | ⟨_, _, h⟩
  · exact absurd (hct.symm.trans h) (by decide)
  · rw [ho, htm] at hne
    exact absurd rfl hne
  · rw [htm, ho] at h
    rw [h]
    decide

/-- C10 witness: `"CREATE TABLE;"` contains the safeguard substring but no
fragment matches the header regex; the output is the bare announcement. -/
theorem claim_C10_witness :
    order_sql_commands "CREATE TABLE;" =
      "# âœ… DDL Commands sorted by FOREIGN KEY dependency:" :=
  claim_C10 "CREATE TABLE;" (by decide) (by decide)

end DbTools
